import Mathlib

/-!
Verification development for the pasifika-database scripts.

The definitions below are a shallow embedding of the Python sources:
`create-clean-film-islands.py` (name normalization, target matching,
duplicate grouping, property stamping, area sort),
`create-film-islands.py` (the alternative normalizer and relevance
filter), and `airtable-to-baserow.py` / `airtable-explorer.py`
(paginated export loop and constructor credential checks).
Strings keep Python semantics on the ASCII data the scripts use:
`normPre` is `.lower().strip()`.
-/

/-- Pointwise ASCII lowercasing of a character list (Python `.lower()`
on the scripts' data). -/
def toLowerL (cs : List Char) : List Char := cs.map Char.toLower

/-- Drop surrounding whitespace from a character list (Python
`.strip()` on the scripts' data). -/
def trimL (cs : List Char) : List Char :=
  ((cs.dropWhile Char.isWhitespace).reverse.dropWhile Char.isWhitespace).reverse

/-- Python `s.strip()`. -/
def stripS (s : String) : String := ⟨trimL s.data⟩

/-- Python `s.lower()`. -/
def lowerS (s : String) : String := ⟨toLowerL s.data⟩

/-- Python `name.lower().strip()`: lowercase, then trim surrounding
whitespace. -/
def normPre (s : String) : String := stripS (lowerS s)

/-- The `name_mappings` dict of `create-clean-film-islands.py`
(lines 46-77), in source order.  Keys are pairwise distinct, so
first-match lookup agrees with the Python dict. -/
def name_mappings : List (String × String) :=
  [("big island", "hawaii"),
   ("o\x27ahu", "oahu"),
   ("oahu", "oahu"),
   ("rapa nui", "easter island"),
   ("papua new guinea", "new guinea"),
   ("aotearoa", "new zealand"),
   ("te ika-a-māui", "north island"),
   ("te ika-a-māui / north island", "north island"),
   ("manono island", "manono"),
   ("upolu island", "upolu"),
   ("tanna island", "tanna"),
   ("bougainville island", "bougainville"),
   ("goulburn islands", "goulburn"),
   ("satawal", "satawal"),
   ("satawal ", "satawal"),
   ("rapa nui ", "easter island"),
   ("honolulu", "oahu"),
   ("jarvis", "jarvis island"),
   ("kosrae", "kosrae"),
   ("rotuma", "rotuma"),
   ("saipan", "saipan"),
   ("tongatapu", "tongatapu"),
   ("tuvalu", "tuvalu"),
   ("kiribati", "kiribati"),
   ("guam", "guam"),
   ("maui", "maui"),
   ("molokai", "molokai"),
   ("hawaii", "hawaii"),
   ("north island", "north island"),
   ("australia", "australia")]

/-- First-match association lookup, the `dict.get` of a table with
distinct keys. -/
def lookupSub : List (String × String) → String → Option String
  | [], _ => none
  | (k', v) :: rest, k => if k' = k then some v else lookupSub rest k

/-- `normalize_island_name` of `create-clean-film-islands.py`:
lowercase, strip, then `name_mappings.get(name, name)`. -/
def normalize_island_name (name : String) : String :=
  let n := normPre name
  (lookupSub name_mappings n).getD n

/-- The `variations` dict of `create-film-islands.py` (lines 46-59), in
source order: canonical form paired with its variant spellings. -/
def variations : List (String × List String) :=
  [("big island", ["hawaii", "hawaii island"]),
   ("oahu", ["o\x27ahu", "oahu"]),
   ("rapa nui", ["easter island"]),
   ("papua new guinea", ["new guinea"]),
   ("aotearoa", ["new zealand", "north island", "south island"]),
   ("te ika-a-māui", ["north island", "te ika-a-maui"]),
   ("manono island", ["manono"]),
   ("upolu island", ["upolu"]),
   ("tanna island", ["tanna"]),
   ("bougainville island", ["bougainville"]),
   ("goulburn islands", ["goulburn"]),
   ("satawal", ["satawal island"])]

/-- The loop body of `normalize_island_name` in
`create-film-islands.py`: return the first `standard` whose variant
list contains the name or equals it; fall through to the name itself. -/
def normFilmGo : List (String × List String) → String → String
  | [], n => n
  | (std, vars) :: rest, n =>
      if vars.contains n || n == std then std else normFilmGo rest n

/-- `normalize_island_name` of `create-film-islands.py`: lowercase,
strip, then scan the `variations` table. -/
def normalizeFilm (name : String) : String :=
  normFilmGo variations (normPre name)

/-- A GeoJSON feature as the scripts read and write it: the `name` and
`area` properties the filter consults, plus the provenance properties
the clean filter stamps (`film_relevant`, `normalized_name`,
`original_film_name`) and the `mentioned_in_films` flag stamped by
`create-film-islands.py`. -/
structure Feature where
  name : String
  area : Int
  filmRelevant : Bool := false
  normalizedName : Option String := none
  originalFilmName : Option String := none
  mentionedInFilms : Option Bool := none
deriving DecidableEq

/-- `is_target_island` of `create-clean-film-islands.py`: normalize the
feature's (lowercased, stripped) name and compare against each
normalized reference string. -/
def is_target_island (targets : List String) (f : Feature) : Bool :=
  let n := normPre f.name
  let nn := normalize_island_name n
  targets.any (fun t => normalize_island_name t == nn)

/-- One bucket of the `island_groups` dict: the kept feature, its
declared area, and the lowercased stripped raw name. -/
structure GroupEntry where
  feature : Feature
  area : Int
  originalName : String
deriving DecidableEq

/-- Lookup in the `island_groups` association list (Python
`island_groups[normalized_name]` / `normalized_name in island_groups`). -/
def lookupGroup : List (String × GroupEntry) → String → Option GroupEntry
  | [], _ => none
  | (k', e) :: rest, k => if k' = k then some e else lookupGroup rest k

/-- Python dict assignment `island_groups[k] = e`: replace in place when
the key exists, append otherwise (insertion order is preserved). -/
def setGroup : List (String × GroupEntry) → String → GroupEntry →
    List (String × GroupEntry)
  | [], k, e => [(k, e)]
  | (k', e') :: rest, k, e =>
      if k' = k then (k', e) :: rest else (k', e') :: setGroup rest k e

/-- One iteration of the grouping loop in `create_clean_film_islands`
(lines 120-132): skip non-targets; otherwise store the feature under
its canonical key when the key is new or the area strictly exceeds the
stored one. -/
def groupStep (targets : List String) (groups : List (String × GroupEntry))
    (f : Feature) : List (String × GroupEntry) :=
  if is_target_island targets f then
    let n := normPre f.name
    let k := normalize_island_name n
    match lookupGroup groups k with
    | none => setGroup groups k ⟨f, f.area, n⟩
    | some e => if e.area < f.area then setGroup groups k ⟨f, f.area, n⟩
                else groups
  else groups

/-- The `island_groups` dict after the grouping loop. -/
def island_groups (targets : List String) (fs : List Feature) :
    List (String × GroupEntry) :=
  fs.foldl (groupStep targets) []

/-- Property stamping of the kept feature (lines 138-147):
`film_relevant`, `normalized_name` and `original_film_name` are set on a
copy; `name` and `area` are untouched. -/
def updateProps (k : String) (e : GroupEntry) : Feature :=
  { e.feature with
      filmRelevant := true
      normalizedName := some k
      originalFilmName := some e.originalName }

/-- The descending-area comparator of the final `sort(key=area,
reverse=True)`. -/
def areaGe (a b : Feature) : Bool := decide (b.area ≤ a.area)

/-- `final_features` of `create_clean_film_islands`: stamped group
representatives sorted by area, largest first (Python sort is stable;
`List.mergeSort` is the stable sort with the same comparator). -/
def final_features (targets : List String) (fs : List Feature) :
    List Feature :=
  ((island_groups targets fs).map (fun p => updateProps p.1 p.2)).mergeSort
    areaGe

/-- A film-catalog record as read from `nodegoat-film-data.json`: the
one field the scripts consult. -/
structure Film where
  island : Option String
deriving DecidableEq

/-- `load_film_data`: a parse attempt that returns the parsed list on
success and `[]` on any error (the `except` branch). -/
def load_film_data (raw : Except String (List Film)) : List Film :=
  match raw with
  | .ok films => films
  | .error _ => []

/-- A feature collection as `load_geojson` returns it. -/
structure FeatureColl where
  features : List Feature
deriving DecidableEq

/-- `load_geojson`: the parsed collection on success, `None` on any
error. -/
def load_geojson (raw : Except String FeatureColl) : Option FeatureColl :=
  raw.toOption

/-- Set insertion for `islands.add(island)`: membership-respecting
append, mirroring a Python set's contents. -/
def addName (acc : List String) (s : String) : List String :=
  if acc.contains s then acc else acc ++ [s]

/-- `get_film_islands`: collect every truthy `island` field, stripped,
skipping entries that strip to the empty string. -/
def get_film_islands (films : List Film) : List String :=
  films.foldl
    (fun acc film =>
      match film.island with
      | none => acc
      | some s =>
          if s.isEmpty then acc
          else
            let i := stripS s
            if i.isEmpty then acc else addName acc i)
    []

/-- `create_clean_film_islands`: bail out with no output when the
islands dataset failed to load, otherwise filter against the film
islands and return the output collection. -/
def create_clean_film_islands (islandsData : Option FeatureColl)
    (films : List Film) : Option FeatureColl :=
  match islandsData with
  | none => none
  | some fc =>
      let filmIslands := get_film_islands films
      some ⟨final_features filmIslands fc.features⟩

/-- Character-list version of `needle` starting `hay`. -/
def startsWithL : List Char → List Char → Bool
  | _, [] => true
  | [], _ :: _ => false
  | c :: cs, d :: ds => c == d && startsWithL cs ds

/-- Substring test on character lists. -/
def containsSub : List Char → List Char → Bool
  | [], needle => needle.isEmpty
  | c :: t, needle => startsWithL (c :: t) needle || containsSub t needle

/-- Python `needle in hay` on strings. -/
def strIn (needle hay : String) : Bool := containsSub hay.data needle.data

/-- Python `s.startswith(t)`. -/
def strStarts (s t : String) : Bool := startsWithL s.data t.data

/-- The `key_islands` context list of `create-film-islands.py`
(lines 102-109). -/
def key_islands : List String :=
  ["Fiji", "Samoa", "Tonga", "Tahiti", "New Caledonia", "Vanuatu",
   "Solomon Islands", "Palau", "Marshall Islands", "Kiribati",
   "Tuvalu", "Nauru", "Cook Islands", "French Polynesia",
   "American Samoa", "Guam", "Northern Mariana Islands",
   "Federated States of Micronesia", "Niue", "Tokelau",
   "Wallis and Futuna", "Pitcairn", "Norfolk Island"]

/-- `is_relevant_island` of `create-film-islands.py`: a normalized
match against the film islands, or a substring match (either
direction) against a key island. -/
def is_relevant_island (filmIslands keyIslands : List String)
    (f : Feature) : Bool :=
  let n := normPre f.name
  let nn := normalizeFilm n
  filmIslands.any (fun fi => normalizeFilm fi == nn) ||
  keyIslands.any (fun ki => strIn (lowerS ki) n || strIn n (lowerS ki))

/-- The filter loop of `create_film_islands_geojson` (lines 112-125):
keep relevant features, stamping `film_relevant` and
`mentioned_in_films` on a copy. -/
def relevant_islands (filmIslands keyIslands : List String)
    (fs : List Feature) : List Feature :=
  (fs.filter (is_relevant_island filmIslands keyIslands)).map (fun f =>
    { f with
        filmRelevant := true
        mentionedInFilms := some (filmIslands.any
          (fun fi => normalizeFilm fi == normalizeFilm f.name)) })

/-- A record returned by the remote tabular API: opaque identifier plus
named fields. -/
structure ApiRecord where
  id : String
  fields : List (String × String)
deriving DecidableEq

/-- One HTTP page response the export loop consumes: status code,
record batch (`records`), and the optional continuation token
(`offset`). -/
structure PageResponse where
  status : Nat
  records : List ApiRecord
  offset : Option String
deriving DecidableEq

/-- Running state of the `while offset` loop of `export_table_data`:
records accumulated so far, the `page_count` counter (incremented only
on a 200 response), and the number of HTTP requests issued. -/
structure FetchAcc where
  records : List ApiRecord
  pageCount : Nat
  requestCount : Nat
deriving DecidableEq

/-- The `while offset` loop (lines 122-144), driven by the list of
responses the network would return to the successive follow-up
requests: while the token is present, issue a request; on a 200 extend
the accumulator and take the new token; otherwise log and `break`,
discarding nothing already accumulated. -/
def fetchPages : Option String → List PageResponse → FetchAcc
  | none, _ => ⟨[], 0, 0⟩
  | some _, [] => ⟨[], 0, 0⟩
  | some _, r :: rest =>
      if r.status == 200 then
        let acc := fetchPages r.offset rest
        ⟨r.records ++ acc.records, acc.pageCount + 1, acc.requestCount + 1⟩
      else ⟨[], 0, 1⟩

/-- What `export_table_data` produces for one table: the returned
record list, the page counter, the requests issued, and the JSON / CSV
artifacts it writes (`none` when the corresponding write is skipped). -/
structure ExportResult where
  records : List ApiRecord
  pageCount : Nat
  requestCount : Nat
  jsonArtifact : Option (List ApiRecord)
  csvArtifact : Option (List (String × List (String × String)))
deriving DecidableEq

/-- The CSV conversion (lines 160-168): one row per record, identifier
first, then the record's named fields. -/
def csvRows (records : List ApiRecord) : List (String × List (String × String)) :=
  records.map (fun r => (r.id, r.fields))

/-- `export_table_data` (lines 84-175) over the first page response and
the responses to the follow-up requests.  A non-200 first response
returns `[]` before any artifact is written; otherwise the loop
accumulates, the JSON artifact always holds the accumulated records,
and the CSV artifact is written only when some record was fetched. -/
def export_table_data (first : PageResponse) (rest : List PageResponse) :
    ExportResult :=
  if first.status == 200 then
    let tail := fetchPages first.offset rest
    let allRecords := first.records ++ tail.records
    { records := allRecords
      pageCount := tail.pageCount + 1
      requestCount := tail.requestCount + 1
      jsonArtifact := some allRecords
      csvArtifact := if allRecords.isEmpty then none
                     else some (csvRows allRecords) }
  else
    { records := []
      pageCount := 0
      requestCount := 1
      jsonArtifact := none
      csvArtifact := none }

/-- The record batches of the successfully fetched follow-up pages, in
fetch order: the fetch stops at an absent token, an exhausted network,
or a non-200 status. -/
def fetchedPages : Option String → List PageResponse → List (List ApiRecord)
  | none, _ => []
  | some _, [] => []
  | some _, r :: rest =>
      if r.status == 200 then r.records :: fetchedPages r.offset rest
      else []

/-- All record batches the export consumes, first page included. -/
def allFetchedPages (first : PageResponse) (rest : List PageResponse) :
    List (List ApiRecord) :=
  if first.status == 200 then first.records :: fetchedPages first.offset rest
  else []

/-- `AirtableExplorer.__init__` credential handling (lines 20-26 of
`airtable-explorer.py`): `os.getenv` yields `none` when the variable is
unset; a falsy (absent or empty) key raises, then a key that does not
start with `pat` raises; construction performs no network request. -/
def explorerInit (env : Option String) : Except String Unit :=
  match env with
  | none => .error "AIRTABLE_API_KEY not found in .env file"
  | some k =>
      if k.isEmpty then .error "AIRTABLE_API_KEY not found in .env file"
      else if strStarts k "pat" then .ok ()
      else .error "Invalid API key format"

/-- `AirtableToBaseRow.__init__` credential handling (lines 20-22 of
`airtable-to-baserow.py`): only the falsy check is performed; there is
no format check, and construction performs no network request. -/
def baserowInit (env : Option String) : Except String Unit :=
  match env with
  | none => .error "AIRTABLE_API_KEY not found in environment"
  | some k =>
      if k.isEmpty then .error "AIRTABLE_API_KEY not found in environment"
      else .ok ()

/-- Canonical key of a feature as the grouping loop computes it:
normalize the lowercased stripped `name` property. -/
def canonKey (f : Feature) : String := normalize_island_name (normPre f.name)

/-- The group entry the loop stores for a feature. -/
def mkEntry (f : Feature) : GroupEntry := ⟨f, f.area, normPre f.name⟩

/-- The candidates of one canonical key: target features of the input
whose canonical key is `k`, in input order. -/
def duplicateCandidates (targets : List String) (k : String)
    (fs : List Feature) : List Feature :=
  fs.filter (fun f => is_target_island targets f && (canonKey f == k))

/-- Keep the candidate with the strictly larger area, first encountered
on ties. -/
def pickStep (o : Option Feature) (f : Feature) : Option Feature :=
  match o with
  | none => some f
  | some g => if g.area < f.area then some f else some g

/-- The maximum-area candidate, earliest on ties (the representative
the spec says the filter keeps). -/
def firstArgmax (l : List Feature) : Option Feature := l.foldl pickStep none

/-- `pickStep` lifted to stored group entries. -/
def entryStep (o : Option GroupEntry) (f : Feature) : Option GroupEntry :=
  match o with
  | none => some (mkEntry f)
  | some e => if e.area < f.area then some (mkEntry f) else some e

/-- Flatten the `variations` table into alias-to-canonical pairs, in
scan order: each variant maps to its standard, and each standard maps
to itself. -/
def flattenVariations : List (String × List String) → List (String × String)
  | [] => []
  | (std, vars) :: rest =>
      vars.map (fun v => (v, std)) ++ [(std, std)] ++ flattenVariations rest

/-- The substitution table realized by the `create-film-islands.py`
normalizer. -/
def filmTable : List (String × String) := flattenVariations variations

theorem fetchPages_records (o : Option String) (rs : List PageResponse) :
    (fetchPages o rs).records = (fetchedPages o rs).flatten := by
  induction rs generalizing o with
  | nil => cases o <;> simp [fetchPages, fetchedPages]
  | cons r rest ih =>
      cases o with
      | none => simp [fetchPages, fetchedPages]
      | some t =>
          cases h : (r.status == 200) <;>
            simp [fetchPages, fetchedPages, h, ih]

/-- C4: for every sequence of page responses, the accumulated record
sequence of `export_table_data` equals the concatenation, in fetch
order, of the record lists of the pages the loop consumed. -/
theorem export_accumulation_order_preserving (first : PageResponse)
    (rest : List PageResponse) :
    (export_table_data first rest).records =
      (allFetchedPages first rest).flatten := by
  cases h : (first.status == 200) <;>
    simp [export_table_data, allFetchedPages, h, fetchPages_records]

/-- C5: when page one answers 200 with 100 records and a continuation
token and page two answers 200 with 37 records and no token, the loop
terminates after exactly 2 requests (both counted as pages) with
exactly 137 accumulated records. -/
theorem export_two_page_example :
    (export_table_data ⟨200, List.replicate 100 ⟨"r", []⟩, some "tok"⟩
        [⟨200, List.replicate 37 ⟨"r", []⟩, none⟩]).requestCount = 2 ∧
    (export_table_data ⟨200, List.replicate 100 ⟨"r", []⟩, some "tok"⟩
        [⟨200, List.replicate 37 ⟨"r", []⟩, none⟩]).pageCount = 2 ∧
    (export_table_data ⟨200, List.replicate 100 ⟨"r", []⟩, some "tok"⟩
        [⟨200, List.replicate 37 ⟨"r", []⟩, none⟩]).records.length = 137 :=
  ⟨rfl, rfl, rfl⟩

theorem fetchPages_fail_after (good : List PageResponse)
    (fail : PageResponse) (rest : List PageResponse) (o : Option String)
    (ho : o.isSome)
    (hg : ∀ g ∈ good, g.status = 200 ∧ g.offset.isSome)
    (hf : fail.status ≠ 200) :
    (fetchPages o (good ++ fail :: rest)).records =
      (good.map PageResponse.records).flatten := by
  induction good generalizing o with
  | nil =>
      obtain ⟨t, rfl⟩ := Option.isSome_iff_exists.mp ho
      have hfail : (fail.status == 200) = false := by simp [hf]
      simp [fetchPages, hfail]
  | cons g good ih =>
      obtain ⟨t, rfl⟩ := Option.isSome_iff_exists.mp ho
      obtain ⟨hgs, hgo⟩ := hg g (by simp)
      have h200 : (g.status == 200) = true := by simp [hgs]
      rw [List.cons_append]
      simp only [fetchPages, h200, if_true]
      rw [ih g.offset hgo (fun x hx => hg x (by simp [hx]))]
      simp

/-- C10: whenever a follow-up page request answers a non-success status
after at least one successful page — the successful first page plus any
number of successful token-carrying follow-up pages — the loop stops,
but every record accumulated from the earlier pages is still returned
and written to both the JSON and the CSV artifact: the partial result
is persisted, not rolled back. -/
theorem partial_export_persisted (first : PageResponse)
    (good : List PageResponse) (fail : PageResponse)
    (rest : List PageResponse)
    (hs : first.status = 200) (ho : first.offset.isSome)
    (hg : ∀ g ∈ good, g.status = 200 ∧ g.offset.isSome)
    (hf : fail.status ≠ 200) (hne : first.records ≠ []) :
    (export_table_data first (good ++ fail :: rest)).records =
      first.records ++ (good.map PageResponse.records).flatten ∧
    (export_table_data first (good ++ fail :: rest)).jsonArtifact =
      some (first.records ++ (good.map PageResponse.records).flatten) ∧
    (export_table_data first (good ++ fail :: rest)).csvArtifact =
      some (csvRows (first.records ++
        (good.map PageResponse.records).flatten)) := by
  have h200 : (first.status == 200) = true := by simp [hs]
  have hrec := fetchPages_fail_after good fail rest first.offset ho hg hf
  have hnonempty :
      (first.records ++ (good.map PageResponse.records).flatten) ≠ [] := by
    intro h
    rw [List.append_eq_nil] at h
    exact hne h.1
  simp [export_table_data, h200, hrec, hnonempty]

/-- Witness for C10 at a concrete trace where the failure arrives after
two successful pages (the first page and one successful follow-up):
both pages' records persist in the returned list and both artifacts. -/
theorem partial_export_persisted_witness :
    (export_table_data ⟨200, [⟨"a", []⟩], some "t1"⟩
        [⟨200, [⟨"b", []⟩], some "t2"⟩, ⟨500, [], none⟩]).records =
      [⟨"a", []⟩, ⟨"b", []⟩] ∧
    (export_table_data ⟨200, [⟨"a", []⟩], some "t1"⟩
        [⟨200, [⟨"b", []⟩], some "t2"⟩, ⟨500, [], none⟩]).jsonArtifact =
      some [⟨"a", []⟩, ⟨"b", []⟩] ∧
    (export_table_data ⟨200, [⟨"a", []⟩], some "t1"⟩
        [⟨200, [⟨"b", []⟩], some "t2"⟩, ⟨500, [], none⟩]).csvArtifact =
      some (csvRows [⟨"a", []⟩, ⟨"b", []⟩]) :=
  partial_export_persisted ⟨200, [⟨"a", []⟩], some "t1"⟩
    [⟨200, [⟨"b", []⟩], some "t2"⟩] ⟨500, [], none⟩ []
    rfl rfl (by decide) (by decide) (by decide)

/-- C8 counterexample: `AirtableToBaseRow.__init__` accepts a token
that fails the literal format check, so a malformed (wrong-format)
credential does not raise there. -/
theorem baserow_init_no_format_check :
    baserowInit (some "sk-bad") = Except.ok () ∧
    strStarts "sk-bad" "pat" = false :=
  ⟨rfl, by decide⟩

/-- C8 amended: `AirtableExplorer.__init__` succeeds exactly on a
present, non-empty token carrying the literal `pat` marker, while
`AirtableToBaseRow.__init__` succeeds exactly on a present non-empty
token, with no format check; both checks run during construction,
before any network request. -/
theorem init_validation_characterization (env : Option String) :
    ((explorerInit env = Except.ok ()) ↔
      ∃ k, env = some k ∧ k.isEmpty = false ∧ strStarts k "pat" = true) ∧
    ((baserowInit env = Except.ok ()) ↔
      ∃ k, env = some k ∧ k.isEmpty = false) := by
  cases env with
  | none => simp [explorerInit, baserowInit]
  | some k =>
      constructor
      · simp only [explorerInit]
        split_ifs <;> simp_all
      · simp only [baserowInit]
        split_ifs <;> simp_all

/-- Witness for C8's amended characterization at concrete tokens. -/
theorem init_validation_witness :
    explorerInit (some "patX") = Except.ok () ∧
    baserowInit (some "x") = Except.ok () :=
  ⟨(init_validation_characterization (some "patX")).1.mpr
      ⟨"patX", rfl, by decide, by decide⟩,
   (init_validation_characterization (some "x")).2.mpr
      ⟨"x", rfl, by decide⟩⟩

theorem groupStep_nil_targets (g : List (String × GroupEntry)) (f : Feature) :
    groupStep [] g f = g := rfl

theorem island_groups_nil_targets (fs : List Feature) :
    island_groups [] fs = [] := by
  show fs.foldl (groupStep []) [] = []
  induction fs with
  | nil => rfl
  | cons f fs ih => simpa [List.foldl_cons, groupStep_nil_targets] using ih

theorem final_features_nil_targets (fs : List Feature) :
    final_features [] fs = [] := by
  simp [final_features, island_groups_nil_targets, List.mergeSort]

/-- C9: a failed load of the film data yields the empty list, a failed
load of the GeoJSON yields `None` (no exception escapes either), and
the filter run on an empty reference set matches zero features instead
of failing; a missing islands dataset makes the pipeline return no
output. -/
theorem load_failure_yields_empty (msg : String) (fc : FeatureColl)
    (films : List Film) :
    load_film_data (Except.error msg) = [] ∧
    load_geojson (Except.error msg) = none ∧
    create_clean_film_islands (some fc) (load_film_data (Except.error msg)) =
      some ⟨[]⟩ ∧
    create_clean_film_islands none films = none := by
  refine ⟨rfl, rfl, ?_, rfl⟩
  simp [create_clean_film_islands, load_film_data, get_film_islands,
    final_features_nil_targets]
theorem lookupSub_append (t1 t2 : List (String × String)) (k : String) :
    lookupSub (t1 ++ t2) k = (lookupSub t1 k).or (lookupSub t2 k) := by
  induction t1 with
  | nil => simp [lookupSub]
  | cons p rest ih =>
      obtain ⟨k0, v⟩ := p
      by_cases h : k0 = k <;> simp [lookupSub, h, ih]

theorem lookupSub_map_self (vars : List String) (std n : String) :
    lookupSub (vars.map (fun v => (v, std))) n =
      if vars.contains n then some std else none := by
  induction vars with
  | nil => simp [lookupSub]
  | cons v rest ih =>
      by_cases h : v = n
      · subst h
        simp [lookupSub, List.contains_cons]
      · have hn : ¬ n = v := fun hh => h hh.symm
        simp [lookupSub, h, ih, List.contains_cons, hn]

theorem normFilmGo_eq_lookup (vs : List (String × List String)) (n : String) :
    normFilmGo vs n = (lookupSub (flattenVariations vs) n).getD n := by
  induction vs with
  | nil => rfl
  | cons p rest ih =>
      obtain ⟨std, vars⟩ := p
      simp only [normFilmGo, flattenVariations]
      rw [List.append_assoc, lookupSub_append, lookupSub_map_self,
        lookupSub_append]
      cases hc : vars.contains n
      · by_cases hs : n = std
        · subst hs
          simp [lookupSub, hc]
        · have hs' : (n == std) = false := by simp [hs]
          have hsn : ¬ std = n := fun hh => hs hh.symm
          have hone : lookupSub [(std, std)] n = none := by
            simp [lookupSub, hsn]
          simp [hc, hs', hone, ih]
      · simp [hc]

/-- C3: both normalizers are pure functions equal to lowercasing,
trimming, then one fixed alias-to-canonical substitution table (the
clean script's `name_mappings`; for the film script, the table obtained
by flattening `variations` in scan order), and every input whose
lowercased trimmed form is not a key of the table comes back as exactly
that lowercased trimmed form. -/
theorem normalization_is_table_lookup (s : String) :
    (normalize_island_name s =
      (lookupSub name_mappings (normPre s)).getD (normPre s)) ∧
    (normalizeFilm s = (lookupSub filmTable (normPre s)).getD (normPre s)) ∧
    (lookupSub name_mappings (normPre s) = none →
      normalize_island_name s = normPre s) ∧
    (lookupSub filmTable (normPre s) = none →
      normalizeFilm s = normPre s) := by
  refine ⟨rfl, normFilmGo_eq_lookup variations (normPre s), ?_, ?_⟩
  · intro h
    simp [normalize_island_name, h]
  · intro h
    have h' : lookupSub (flattenVariations variations) (normPre s) = none := h
    simp only [normalizeFilm, normFilmGo_eq_lookup variations (normPre s), h',
      Option.getD_none]

/-- Witness for C3's identity fallback at a concrete unmapped name. -/
theorem normalization_is_table_lookup_witness :
    lookupSub name_mappings (normPre " Fiji ") = none ∧
    normalize_island_name " Fiji " = normPre " Fiji " ∧
    lookupSub filmTable (normPre " Fiji ") = none ∧
    normalizeFilm " Fiji " = normPre " Fiji " :=
  ⟨by decide, (normalization_is_table_lookup " Fiji ").2.2.1 (by decide),
   by decide, (normalization_is_table_lookup " Fiji ").2.2.2 (by decide)⟩

theorem lookupGroup_setGroup_self (g : List (String × GroupEntry))
    (k : String) (e : GroupEntry) :
    lookupGroup (setGroup g k e) k = some e := by
  induction g with
  | nil => simp [setGroup, lookupGroup]
  | cons p rest ih =>
      obtain ⟨k0, e0⟩ := p
      by_cases h : k0 = k <;> simp [setGroup, lookupGroup, h, ih]

theorem lookupGroup_setGroup_ne (g : List (String × GroupEntry))
    (k k' : String) (e : GroupEntry) (h : k' ≠ k) :
    lookupGroup (setGroup g k e) k' = lookupGroup g k' := by
  have h' : ¬ k = k' := fun hh => h hh.symm
  induction g with
  | nil => simp [setGroup, lookupGroup, h']
  | cons p rest ih =>
      obtain ⟨k0, e0⟩ := p
      by_cases h0 : k0 = k
      · subst h0
        simp [setGroup, lookupGroup, h']
      · simp [setGroup, lookupGroup, h0, ih]

theorem lookupGroup_eq_none_iff (g : List (String × GroupEntry))
    (k : String) :
    lookupGroup g k = none ↔ k ∉ g.map Prod.fst := by
  induction g with
  | nil => simp [lookupGroup]
  | cons p rest ih =>
      obtain ⟨k0, e0⟩ := p
      by_cases h : k0 = k
      · subst h
        simp [lookupGroup]
      · have h' : ¬ k = k0 := fun hh => h hh.symm
        simp [lookupGroup, h, h', ih]

theorem mem_setGroup (g : List (String × GroupEntry)) (k : String)
    (e : GroupEntry) (p : String × GroupEntry) (hp : p ∈ setGroup g k e) :
    p ∈ g ∨ p = (k, e) := by
  induction g with
  | nil => simpa [setGroup] using hp
  | cons q rest ih =>
      obtain ⟨k0, e0⟩ := q
      by_cases h0 : k0 = k
      · subst h0
        simp only [setGroup, if_pos rfl, if_true, List.mem_cons] at hp
        rcases hp with h1 | h1
        · subst h1
          exact Or.inr rfl
        · exact Or.inl (List.mem_cons_of_mem _ h1)
      · simp only [setGroup, if_neg h0, List.mem_cons] at hp
        rcases hp with h1 | h1
        · exact Or.inl (by simp [h1])
        · rcases ih h1 with h2 | h2
          · exact Or.inl (List.mem_cons_of_mem _ h2)
          · exact Or.inr h2

theorem setGroup_of_not_mem (g : List (String × GroupEntry)) (k : String)
    (e : GroupEntry) (h : k ∉ g.map Prod.fst) :
    setGroup g k e = g ++ [(k, e)] := by
  induction g with
  | nil => rfl
  | cons q rest ih =>
      obtain ⟨k0, e0⟩ := q
      simp only [List.map_cons, List.mem_cons] at h
      push_neg at h
      have h0 : ¬ k0 = k := fun hh => h.1 hh.symm
      simp only [setGroup, if_neg h0, List.cons_append, List.cons.injEq,
        true_and]
      exact ih h.2

theorem setGroup_keys_of_mem (g : List (String × GroupEntry)) (k : String)
    (e : GroupEntry) (h : k ∈ g.map Prod.fst) :
    (setGroup g k e).map Prod.fst = g.map Prod.fst := by
  induction g with
  | nil => simp at h
  | cons q rest ih =>
      obtain ⟨k0, e0⟩ := q
      by_cases h0 : k0 = k
      · subst h0
        simp [setGroup]
      · simp only [List.map_cons, List.mem_cons] at h
        rcases h with h | h
        · exact absurd h.symm h0
        · simp only [setGroup, if_neg h0, List.map_cons, ih h]
theorem updateProps_name (k : String) (e : GroupEntry) :
    (updateProps k e).name = e.feature.name := rfl

theorem updateProps_area (k : String) (e : GroupEntry) :
    (updateProps k e).area = e.feature.area := rfl

theorem canonKey_updateProps (k : String) (e : GroupEntry) :
    canonKey (updateProps k e) = canonKey e.feature := rfl

theorem groupStep_eq (targets : List String)
    (acc : List (String × GroupEntry)) (f : Feature) :
    groupStep targets acc f =
      if is_target_island targets f then
        match lookupGroup acc (canonKey f) with
        | none => setGroup acc (canonKey f) (mkEntry f)
        | some e =>
            if e.area < f.area then setGroup acc (canonKey f) (mkEntry f)
            else acc
      else acc := rfl

theorem island_groups_wf (targets : List String) (fs : List Feature) :
    ∀ p ∈ island_groups targets fs,
      p.1 = canonKey p.2.feature ∧ p.2 = mkEntry p.2.feature ∧
      is_target_island targets p.2.feature = true := by
  suffices h : ∀ acc,
      (∀ p ∈ acc, p.1 = canonKey p.2.feature ∧ p.2 = mkEntry p.2.feature ∧
        is_target_island targets p.2.feature = true) →
      ∀ p ∈ fs.foldl (groupStep targets) acc,
        p.1 = canonKey p.2.feature ∧ p.2 = mkEntry p.2.feature ∧
        is_target_island targets p.2.feature = true by
    exact h [] (by simp)
  induction fs with
  | nil => exact fun acc hacc => hacc
  | cons f fs ih =>
      intro acc hacc p hp
      rw [List.foldl_cons] at hp
      refine ih (groupStep targets acc f) ?_ p hp
      intro q hq
      rw [groupStep_eq] at hq
      by_cases ht : is_target_island targets f
      · rw [if_pos ht] at hq
        cases hl : lookupGroup acc (canonKey f) with
        | none =>
            rw [hl] at hq
            dsimp only at hq
            rcases mem_setGroup _ _ _ _ hq with h1 | h1
            · exact hacc q h1
            · subst h1
              exact ⟨rfl, rfl, ht⟩
        | some e =>
            rw [hl] at hq
            dsimp only at hq
            by_cases ha : e.area < f.area
            · rw [if_pos ha] at hq
              rcases mem_setGroup _ _ _ _ hq with h1 | h1
              · exact hacc q h1
              · subst h1
                exact ⟨rfl, rfl, ht⟩
            · rw [if_neg ha] at hq
              exact hacc q hq
      · rw [if_neg ht] at hq
        exact hacc q hq

theorem island_groups_keys_nodup (targets : List String) (fs : List Feature) :
    ((island_groups targets fs).map Prod.fst).Nodup := by
  suffices h : ∀ acc, ((acc : List (String × GroupEntry)).map Prod.fst).Nodup →
      ((fs.foldl (groupStep targets) acc).map Prod.fst).Nodup by
    exact h [] (by simp)
  induction fs with
  | nil => exact fun acc h => h
  | cons f fs ih =>
      intro acc hacc
      rw [List.foldl_cons]
      refine ih _ ?_
      rw [groupStep_eq]
      by_cases ht : is_target_island targets f
      · rw [if_pos ht]
        cases hl : lookupGroup acc (canonKey f) with
        | none =>
            have hk : canonKey f ∉ acc.map Prod.fst :=
              (lookupGroup_eq_none_iff _ _).mp hl
            rw [setGroup_of_not_mem _ _ _ hk]
            simp only [List.map_append, List.map_cons, List.map_nil]
            rw [List.nodup_append]
            exact ⟨hacc, List.nodup_singleton _, by simpa using hk⟩
        | some e =>
            have hk : canonKey f ∈ acc.map Prod.fst := by
              by_contra hk
              rw [(lookupGroup_eq_none_iff _ _).mpr hk] at hl
              cases hl
            dsimp only
            by_cases ha : e.area < f.area
            · rw [if_pos ha, setGroup_keys_of_mem _ _ _ hk]
              exact hacc
            · rw [if_neg ha]
              exact hacc
      · rw [if_neg ht]
        exact hacc

theorem mem_final_features (targets : List String) (fs : List Feature)
    (f : Feature) :
    f ∈ final_features targets fs ↔
      ∃ p ∈ island_groups targets fs, f = updateProps p.1 p.2 := by
  unfold final_features
  rw [List.Perm.mem_iff (List.mergeSort_perm _ _)]
  simp only [List.mem_map]
  constructor
  · rintro ⟨p, hp, rfl⟩
    exact ⟨p, hp, rfl⟩
  · rintro ⟨p, hp, rfl⟩
    exact ⟨p, hp, rfl⟩

/-- C7: every output list of the clean filter is sorted in descending
order of the features' declared area. -/
theorem clean_filter_output_sorted (targets : List String)
    (fs : List Feature) :
    List.Pairwise (fun a b : Feature => b.area ≤ a.area)
      (final_features targets fs) := by
  have htrans : ∀ (a b c : Feature), areaGe a b = true → areaGe b c = true →
      areaGe a c = true := by
    intro a b c hab hbc
    simp only [areaGe, decide_eq_true_eq] at hab hbc ⊢
    exact le_trans hbc hab
  have htot : ∀ (a b : Feature), (areaGe a b || areaGe b a) = true := by
    intro a b
    simp only [areaGe]
    rcases le_total b.area a.area with h | h <;> simp [h]
  have h := @List.sorted_mergeSort Feature areaGe htrans htot
    ((island_groups targets fs).map (fun p => updateProps p.1 p.2))
  unfold final_features
  exact h.imp (fun hab => by simpa [areaGe] using hab)

/-- C2 counterexample: the relevance filter of `create-film-islands.py`
outputs a feature named Fiji on an empty reference set (it matches the
hard-coded key-island list by substring), so not every output feature's
normalized name comes from a reference string. -/
theorem relevant_filter_includes_nonreference :
    ¬ (∀ f ∈ relevant_islands [] key_islands [{name := "Fiji", area := 1}],
        ∃ t, t ∈ ([] : List String) ∧
          normalizeFilm t = normalizeFilm (normPre f.name)) := by
  intro h
  obtain ⟨t, ht, _⟩ := h
    {name := "Fiji", area := 1, filmRelevant := true,
     mentionedInFilms := some false} (by decide)
  exact absurd ht (List.not_mem_nil t)

/-- C2 amended: every feature output by the clean filter
(`create_clean_film_islands` / `is_target_island`) has a normalized
name equal to the normalized form of at least one reference string; the
relevance filter of `create-film-islands.py` can additionally include
features by substring match against its fixed key-island list. -/
theorem clean_filter_output_matches_reference (targets : List String)
    (fs : List Feature) (f : Feature)
    (hf : f ∈ final_features targets fs) :
    ∃ t, t ∈ targets ∧
      normalize_island_name t = normalize_island_name (normPre f.name) := by
  rw [mem_final_features] at hf
  obtain ⟨p, hp, rfl⟩ := hf
  obtain ⟨hk, he, ht⟩ := island_groups_wf targets fs p hp
  simp only [is_target_island, List.any_eq_true, beq_iff_eq] at ht
  obtain ⟨t, htm, hteq⟩ := ht
  exact ⟨t, htm, by simpa [updateProps_name] using hteq⟩

/-- Witness for C2's amended clean-filter property at concrete input. -/
theorem clean_filter_output_matches_reference_witness :
    ∃ t, t ∈ ["x"] ∧
      normalize_island_name t = normalize_island_name (normPre "x") :=
  clean_filter_output_matches_reference ["x"] [{name := "x", area := 5}]
    {name := "x", area := 5, filmRelevant := true, normalizedName := some "x", originalFilmName := some "x"}
    (by
      have hpre : (island_groups ["x"] [{name := "x", area := 5}]).map
          (fun p => updateProps p.1 p.2) =
          [{name := "x", area := 5, filmRelevant := true,
            normalizedName := some "x", originalFilmName := some "x"}] := by
        decide
      unfold final_features
      rw [hpre, List.mergeSort_of_sorted (by decide)]
      simp)

theorem lookupGroup_foldl (targets : List String) (fs : List Feature)
    (acc : List (String × GroupEntry)) (k : String) :
    lookupGroup (fs.foldl (groupStep targets) acc) k =
      (duplicateCandidates targets k fs).foldl entryStep
        (lookupGroup acc k) := by
  induction fs generalizing acc with
  | nil => simp [duplicateCandidates]
  | cons f fs ih =>
      rw [List.foldl_cons, ih, duplicateCandidates, duplicateCandidates]
      by_cases ht : is_target_island targets f = true
      · by_cases hk : canonKey f = k
        · have hpred : (is_target_island targets f &&
              (canonKey f == k)) = true := by simp [ht, hk]
          rw [List.filter_cons, if_pos (by simpa using hpred),
            List.foldl_cons]
          congr 1
          subst hk
          rw [groupStep_eq, if_pos ht]
          cases hl : lookupGroup acc (canonKey f) with
          | none =>
              dsimp only
              rw [lookupGroup_setGroup_self]
              simp [entryStep]
          | some e =>
              dsimp only
              by_cases ha : e.area < f.area
              · rw [if_pos ha, lookupGroup_setGroup_self]
                simp [entryStep, ha]
              · rw [if_neg ha, hl]
                simp [entryStep, ha]
        · have hpred : (is_target_island targets f &&
              (canonKey f == k)) = false := by simp [hk]
          rw [List.filter_cons, if_neg (by simp [hpred])]
          congr 1
          have hkk : k ≠ canonKey f := fun hh => hk hh.symm
          rw [groupStep_eq, if_pos ht]
          cases hl : lookupGroup acc (canonKey f) with
          | none =>
              dsimp only
              exact lookupGroup_setGroup_ne _ _ _ _ hkk
          | some e =>
              dsimp only
              by_cases ha : e.area < f.area
              · rw [if_pos ha]
                exact lookupGroup_setGroup_ne _ _ _ _ hkk
              · rw [if_neg ha]
      · have hpred : (is_target_island targets f &&
            (canonKey f == k)) = false := by simp [ht]
        rw [List.filter_cons, if_neg (by simp [hpred])]
        congr 1
        rw [groupStep_eq, if_neg ht]

theorem foldl_entryStep_map (l : List Feature) (g : Option Feature) :
    l.foldl entryStep (g.map mkEntry) = (l.foldl pickStep g).map mkEntry := by
  induction l generalizing g with
  | nil => rfl
  | cons f t ih =>
      rw [List.foldl_cons, List.foldl_cons]
      cases g with
      | none => exact ih (some f)
      | some g0 =>
          by_cases ha : g0.area < f.area
          · have h1 : entryStep ((some g0).map mkEntry) f =
                (some f).map mkEntry := by
              simp [entryStep, mkEntry, ha]
            have h2 : pickStep (some g0) f = some f := by
              simp [pickStep, ha]
            rw [h1, h2]
            exact ih (some f)
          · have h1 : entryStep ((some g0).map mkEntry) f =
                (some g0).map mkEntry := by
              simp [entryStep, mkEntry, ha]
            have h2 : pickStep (some g0) f = some g0 := by
              simp [pickStep, ha]
            rw [h1, h2]
            exact ih (some g0)

theorem pick_fold_spec (t : List Feature) (g0 : Feature) :
    ∃ g, t.foldl pickStep (some g0) = some g ∧
      ((g = g0 ∧ ∀ c ∈ t, c.area ≤ g0.area) ∨
       (∃ t1 t2, t = t1 ++ g :: t2 ∧ g0.area < g.area ∧
         (∀ c ∈ t1, c.area < g.area) ∧ (∀ c ∈ t2, c.area ≤ g.area))) := by
  induction t generalizing g0 with
  | nil => exact ⟨g0, rfl, Or.inl ⟨rfl, by simp⟩⟩
  | cons f t ih =>
      rw [List.foldl_cons]
      by_cases ha : g0.area < f.area
      · have hstep : pickStep (some g0) f = some f := by simp [pickStep, ha]
        rw [hstep]
        obtain ⟨g, hg, hcase⟩ := ih f
        refine ⟨g, hg, Or.inr ?_⟩
        rcases hcase with ⟨rfl, hall⟩ | ⟨t1, t2, rfl, hlt, h1, h2⟩
        · exact ⟨[], t, rfl, ha, by simp, hall⟩
        · refine ⟨f :: t1, t2, rfl, lt_trans ha hlt, ?_, h2⟩
          intro c hc
          rcases List.mem_cons.mp hc with rfl | hc
          · exact hlt
          · exact h1 c hc
      · have hstep : pickStep (some g0) f = some g0 := by simp [pickStep, ha]
        rw [hstep]
        obtain ⟨g, hg, hcase⟩ := ih g0
        refine ⟨g, hg, ?_⟩
        rcases hcase with ⟨rfl, hall⟩ | ⟨t1, t2, heq, hlt, h1, h2⟩
        · refine Or.inl ⟨rfl, ?_⟩
          intro c hc
          rcases List.mem_cons.mp hc with rfl | hc
          · exact le_of_not_lt ha
          · exact hall c hc
        · refine Or.inr ⟨f :: t1, t2, by rw [heq]; rfl, hlt, ?_, h2⟩
          intro c hc
          rcases List.mem_cons.mp hc with rfl | hc
          · exact lt_of_le_of_lt (le_of_not_lt ha) hlt
          · exact h1 c hc

theorem firstArgmax_spec (l : List Feature) (g : Feature)
    (h : firstArgmax l = some g) :
    ∃ l1 l2, l = l1 ++ g :: l2 ∧ (∀ c ∈ l1, c.area < g.area) ∧
      (∀ c ∈ l2, c.area ≤ g.area) := by
  cases l with
  | nil => cases h
  | cons f t =>
      unfold firstArgmax at h
      rw [List.foldl_cons] at h
      obtain ⟨g', hg', hcase⟩ := pick_fold_spec t f
      rw [show pickStep none f = some f from rfl, hg'] at h
      obtain rfl : g' = g := by injection h
      rcases hcase with ⟨rfl, hall⟩ | ⟨t1, t2, rfl, hlt, h1, h2⟩
      · exact ⟨[], t, rfl, by simp, hall⟩
      · refine ⟨f :: t1, t2, rfl, ?_, h2⟩
        intro c hc
        rcases List.mem_cons.mp hc with rfl | hc
        · exact hlt
        · exact h1 c hc

theorem lookupGroup_of_mem_nodup (g : List (String × GroupEntry))
    (p : String × GroupEntry) (hg : (g.map Prod.fst).Nodup) (hp : p ∈ g) :
    lookupGroup g p.1 = some p.2 := by
  induction g with
  | nil => cases hp
  | cons q rest ih =>
      obtain ⟨k0, e0⟩ := q
      simp only [List.map_cons, List.nodup_cons] at hg
      rcases List.mem_cons.mp hp with rfl | hp'
      · simp [lookupGroup]
      · have hne : ¬ k0 = p.1 := by
          intro hh
          exact hg.1 (hh ▸ List.mem_map_of_mem Prod.fst hp')
        simp only [lookupGroup, if_neg hne]
        exact ih hg.2 hp'

theorem countP_key_le_one (targets : List String) (fs : List Feature)
    (k : String) :
    (final_features targets fs).countP (fun f => canonKey f == k) ≤ 1 := by
  have hperm : List.Perm (final_features targets fs)
      ((island_groups targets fs).map (fun p => updateProps p.1 p.2)) :=
    List.mergeSort_perm _ _
  rw [List.Perm.countP_eq _ hperm, List.countP_map]
  have hcongr : (island_groups targets fs).countP
      ((fun f => canonKey f == k) ∘ (fun p => updateProps p.1 p.2)) =
      (island_groups targets fs).countP (fun p => p.1 == k) := by
    apply List.countP_congr
    intro p hp
    obtain ⟨hk1, _, _⟩ := island_groups_wf targets fs p hp
    simp only [Function.comp_apply, canonKey_updateProps, beq_iff_eq, ← hk1]
  rw [hcongr]
  have hcnt : (island_groups targets fs).countP (fun p => p.1 == k) =
      ((island_groups targets fs).map Prod.fst).count k := by
    rw [List.count_eq_countP, List.countP_map]
    rfl
  rw [hcnt]
  exact List.nodup_iff_count_le_one.mp (island_groups_keys_nodup targets fs) k

/-- C1: for every reference set, feature list and canonical key, the
clean filter's output holds at most one feature with that key, and any
such feature is the stamped copy of the first maximum-area candidate
among the input features normalizing to that key: every candidate
before it is strictly smaller, every one after it no larger. -/
theorem clean_filter_keeps_first_max (targets : List String)
    (fs : List Feature) (k : String) :
    (final_features targets fs).countP (fun f => canonKey f == k) ≤ 1 ∧
    ∀ f ∈ final_features targets fs, canonKey f = k →
      ∃ g l1 l2,
        firstArgmax (duplicateCandidates targets k fs) = some g ∧
        duplicateCandidates targets k fs = l1 ++ g :: l2 ∧
        (∀ c ∈ l1, c.area < g.area) ∧ (∀ c ∈ l2, c.area ≤ g.area) ∧
        f = updateProps k (mkEntry g) := by
  refine ⟨countP_key_le_one targets fs k, ?_⟩
  intro f hf hkey
  rw [mem_final_features] at hf
  obtain ⟨p, hp, rfl⟩ := hf
  obtain ⟨hk1, hk2, hk3⟩ := island_groups_wf targets fs p hp
  have hpk : p.1 = k := by
    rw [← hkey, canonKey_updateProps, ← hk1]
  have hlook : lookupGroup (island_groups targets fs) p.1 = some p.2 :=
    lookupGroup_of_mem_nodup _ p (island_groups_keys_nodup targets fs) hp
  rw [hpk] at hlook
  rw [show island_groups targets fs = fs.foldl (groupStep targets) []
      from rfl, lookupGroup_foldl targets fs [] k] at hlook
  rw [show lookupGroup [] k = none from rfl] at hlook
  have hmap := foldl_entryStep_map (duplicateCandidates targets k fs) none
  rw [show (none : Option Feature).map mkEntry = none from rfl] at hmap
  rw [hmap] at hlook
  cases hfa : firstArgmax (duplicateCandidates targets k fs) with
  | none =>
      rw [show List.foldl pickStep none (duplicateCandidates targets k fs) =
          firstArgmax (duplicateCandidates targets k fs) from rfl, hfa]
        at hlook
      cases hlook
  | some g =>
      rw [show List.foldl pickStep none (duplicateCandidates targets k fs) =
          firstArgmax (duplicateCandidates targets k fs) from rfl, hfa]
        at hlook
      have hpg : p.2 = mkEntry g := by
        injection hlook with h
        exact h.symm
      obtain ⟨l1, l2, hdec, h1, h2⟩ := firstArgmax_spec _ g hfa
      exact ⟨g, l1, l2, rfl, hdec, h1, h2, by rw [← hpk, hpg]⟩

/-- Witness for C1 at a concrete duplicate pair (areas 3 and 5 under
one key): the kept feature is the stamped area-5 candidate. -/
theorem clean_filter_keeps_first_max_witness :
    (final_features ["x"]
        [{name := "x", area := 3}, {name := "x", area := 5}]).countP
        (fun f => canonKey f == "x") ≤ 1 ∧
    (∃ g l1 l2,
      firstArgmax (duplicateCandidates ["x"] "x"
        [{name := "x", area := 3}, {name := "x", area := 5}]) = some g ∧
      duplicateCandidates ["x"] "x"
        [{name := "x", area := 3}, {name := "x", area := 5}] =
          l1 ++ g :: l2 ∧
      (∀ c ∈ l1, c.area < g.area) ∧ (∀ c ∈ l2, c.area ≤ g.area) ∧
      ({name := "x", area := 5, filmRelevant := true, normalizedName := some "x", originalFilmName := some "x"} : Feature) =
        updateProps "x" (mkEntry g)) :=
  ⟨(clean_filter_keeps_first_max ["x"]
      [{name := "x", area := 3}, {name := "x", area := 5}] "x").1,
   (clean_filter_keeps_first_max ["x"]
      [{name := "x", area := 3}, {name := "x", area := 5}] "x").2
     {name := "x", area := 5, filmRelevant := true, normalizedName := some "x", originalFilmName := some "x"}
     (by
        have hpre : (island_groups ["x"]
            [{name := "x", area := 3}, {name := "x", area := 5}]).map
            (fun p => updateProps p.1 p.2) =
            [{name := "x", area := 5, filmRelevant := true, normalizedName := some "x", originalFilmName := some "x"}] := by
          decide
        unfold final_features
        rw [hpre, List.mergeSort_of_sorted (by decide)]
        simp)
     (by decide)⟩

theorem map_eq_self_of_mem {α : Type*} (l : List α) (g : α → α)
    (h : ∀ a ∈ l, g a = a) : l.map g = l := by
  induction l with
  | nil => rfl
  | cons a t ih =>
      rw [List.map_cons, h a (by simp), ih (fun x hx => h x (by simp [hx]))]

theorem groups_of_fixed (targets : List String) (l : List Feature)
    (acc : List (String × GroupEntry))
    (htgt : ∀ f ∈ l, is_target_island targets f = true)
    (hnod : (l.map canonKey).Nodup)
    (hdis : ∀ f ∈ l, canonKey f ∉ acc.map Prod.fst) :
    l.foldl (groupStep targets) acc =
      acc ++ l.map (fun f => (canonKey f, mkEntry f)) := by
  induction l generalizing acc with
  | nil => simp
  | cons f t ih =>
      rw [List.foldl_cons]
      have ht : is_target_island targets f = true := htgt f (by simp)
      have hkn : canonKey f ∉ acc.map Prod.fst := hdis f (by simp)
      have hstep : groupStep targets acc f =
          acc ++ [(canonKey f, mkEntry f)] := by
        rw [groupStep_eq, if_pos ht, (lookupGroup_eq_none_iff _ _).mpr hkn]
        dsimp only
        exact setGroup_of_not_mem _ _ _ hkn
      rw [hstep]
      have hnod' : (t.map canonKey).Nodup := by
        simp only [List.map_cons, List.nodup_cons] at hnod
        exact hnod.2
      have hne : canonKey f ∉ t.map canonKey := by
        simp only [List.map_cons, List.nodup_cons] at hnod
        exact hnod.1
      rw [ih (acc ++ [(canonKey f, mkEntry f)])
        (fun x hx => htgt x (by simp [hx])) hnod' ?_]
      · simp
      · intro x hx
        simp only [List.map_append, List.map_cons, List.map_nil,
          List.mem_append, List.mem_singleton]
        rintro (h | h)
        · exact hdis x (by simp [hx]) h
        · exact hne (h ▸ List.mem_map_of_mem canonKey hx)

theorem final_features_fixed_point_mem (targets : List String)
    (fs : List Feature) :
    ∀ f ∈ final_features targets fs,
      is_target_island targets f = true ∧
      updateProps (canonKey f) (mkEntry f) = f := by
  intro f hf
  rw [mem_final_features] at hf
  obtain ⟨p, hp, rfl⟩ := hf
  obtain ⟨hk1, hk2, hk3⟩ := island_groups_wf targets fs p hp
  obtain ⟨k0, e0⟩ := p
  obtain ⟨ft, ar, onm⟩ := e0
  simp only at hk1 hk2 hk3
  rw [GroupEntry.mk.injEq] at hk2
  obtain ⟨-, har, honm⟩ := hk2
  subst hk1
  subst har
  subst honm
  exact ⟨hk3, rfl⟩

/-- C6: the clean filter is idempotent on its own output: re-running it
with the same reference set permutes nothing in or out — the result is
the same multiset (hence the same set) of features. -/
theorem clean_filter_idempotent (targets : List String) (fs : List Feature) :
    List.Perm (final_features targets (final_features targets fs))
      (final_features targets fs) := by
  have hfix := final_features_fixed_point_mem targets fs
  have htgt : ∀ f ∈ final_features targets fs,
      is_target_island targets f = true := fun f hf => (hfix f hf).1
  have hupd : ∀ f ∈ final_features targets fs,
      updateProps (canonKey f) (mkEntry f) = f := fun f hf => (hfix f hf).2
  have hnod : ((final_features targets fs).map canonKey).Nodup := by
    have hperm : List.Perm (final_features targets fs)
        ((island_groups targets fs).map (fun p => updateProps p.1 p.2)) :=
      List.mergeSort_perm _ _
    have h2 := hperm.map canonKey
    have h3 : ((island_groups targets fs).map
        (fun p => updateProps p.1 p.2)).map canonKey =
        (island_groups targets fs).map Prod.fst := by
      rw [List.map_map]
      apply List.map_congr_left
      intro p hp
      obtain ⟨hk1, -, -⟩ := island_groups_wf targets fs p hp
      simp only [Function.comp_apply, canonKey_updateProps, ← hk1]
    rw [h3] at h2
    exact h2.nodup_iff.mpr (island_groups_keys_nodup targets fs)
  have hgroups : island_groups targets (final_features targets fs) =
      (final_features targets fs).map (fun f => (canonKey f, mkEntry f)) := by
    have h := groups_of_fixed targets (final_features targets fs) []
      htgt hnod (by simp)
    simpa using h
  have hpre2 : (island_groups targets (final_features targets fs)).map
      (fun p => updateProps p.1 p.2) = final_features targets fs := by
    rw [hgroups, List.map_map]
    exact map_eq_self_of_mem _ _ (fun f hf => hupd f hf)
  have hrw : final_features targets (final_features targets fs) =
      (final_features targets fs).mergeSort areaGe := by
    conv_lhs => rw [final_features]
    rw [hpre2]
  rw [hrw]
  exact List.mergeSort_perm _ _
